import Mathlib

/-!
Verification of the Hex game engine (backend `back.py`, frontend `front.py`).

The Python reference implementation is embedded shallowly:
* a board is a size together with a cell function on integer coordinates
  (Python indices are signed before the bounds check `0 <= nr < size`);
* the mutable `visited` matrix of the depth-first searches becomes an
  explicit list of visited coordinates threaded through the recursion;
* unbounded Python recursion becomes fuel-indexed recursion, invoked with
  fuel `size * size + 1`, which the correctness lemmas show is enough;
* Python exceptions (`AttributeError`, `IndexError`) become `Except` errors;
* `random.shuffle` becomes an explicit permutation parameter `sh`, and the
  `random.choice([-1, 0, 1])` of the opening move an offset parameter.
-/

/-- The six hexagonal adjacency offsets of `back.py`. -/
def DIRECTIONS : List (ℤ × ℤ) := [(-1, 0), (-1, 1), (0, -1), (0, 1), (1, -1), (1, 0)]

/-- A Hex board: the side length together with the cell contents
(0 = empty, 1 = first player, 2 = second player). -/
structure Board where
  size : ℕ
  cell : ℤ × ℤ → ℕ

/-- The bounds check `0 <= r < size and 0 <= c < size` of the Python code. -/
def inB (n : ℕ) (p : ℤ × ℤ) : Prop :=
  0 ≤ p.1 ∧ p.1 < (n : ℤ) ∧ 0 ≤ p.2 ∧ p.2 < (n : ℤ)

instance (n : ℕ) (p : ℤ × ℤ) : Decidable (inB n p) :=
  inferInstanceAs (Decidable (0 ≤ p.1 ∧ p.1 < (n : ℤ) ∧ 0 ≤ p.2 ∧ p.2 < (n : ℤ)))

/-- The `for dr, dc in DIRECTIONS` loop of `dfs_path` from `back.py`; the
recursive descent into a neighbour is the function argument `rec`. -/
def dfs_nbrs (b : Board) (player : ℕ)
    (rec : ℤ × ℤ → List (ℤ × ℤ) → Bool × List (ℤ × ℤ)) :
    ℤ × ℤ → List (ℤ × ℤ) → List (ℤ × ℤ) → Bool × List (ℤ × ℤ)
  | _, vis, [] => (false, vis)
  | p, vis, d :: ds =>
    let q : ℤ × ℤ := (p.1 + d.1, p.2 + d.2)
    if inB b.size q ∧ q ∉ vis ∧ b.cell q = player then
      match rec q vis with
      | (true, vis1) => (true, vis1)
      | (false, vis1) => dfs_nbrs b player rec p vis1 ds
    else dfs_nbrs b player rec p vis ds

/-- Embedding of `dfs_path` from `back.py`: depth-first search towards the
destination edge (`direction = 1`: bottom row, `direction = 2`: right column),
threading the visited set and consuming one unit of fuel per call. -/
def dfs_path (b : Board) (player direction : ℕ) :
    ℕ → ℤ × ℤ → List (ℤ × ℤ) → Bool × List (ℤ × ℤ)
  | 0, _, vis => (false, vis)
  | fuel + 1, p, vis =>
    if direction = 1 ∧ p.1 = (b.size : ℤ) - 1 then (decide (b.cell p = player), vis)
    else if direction = 2 ∧ p.2 = (b.size : ℤ) - 1 then (decide (b.cell p = player), vis)
    else if b.cell p ≠ player then (false, vis)
    else dfs_nbrs b player (dfs_path b player direction fuel) p (p :: vis) DIRECTIONS

/-- The start-edge cell scanned by `has_winning_path`: `(0, c)` on the top
row for direction 1, `(c, 0)` in the left column for direction 2. -/
def start_cell (direction : ℕ) (c : ℤ) : ℤ × ℤ :=
  if direction = 1 then (0, c) else (c, 0)

/-- The loop of `has_winning_path` over the start-edge cells, threading the
visited set across iterations as the Python `visited` matrix does. -/
def start_loop (b : Board) (player direction : ℕ) :
    List ℤ → List (ℤ × ℤ) → Bool
  | [], _ => false
  | c :: cs, vis =>
    let p : ℤ × ℤ := start_cell direction c
    if b.cell p = player ∧ p ∉ vis then
      match dfs_path b player direction (b.size * b.size + 1) p vis with
      | (true, _) => true
      | (false, vis1) => start_loop b player direction cs vis1
    else start_loop b player direction cs vis

/-- Embedding of `has_winning_path` from `back.py`: player 1 searches from the
top row towards the bottom row, any other player from the left column towards
the right column. -/
def has_winning_path (b : Board) (player : ℕ) : Bool :=
  if player = 1 then
    start_loop b player 1 ((List.range b.size).map (Nat.cast : ℕ → ℤ)) []
  else
    start_loop b player 2 ((List.range b.size).map (Nat.cast : ℕ → ℤ)) []

/-- Embedding of `check_win` from `back.py` (the reference Python branch,
taken when the optional compiled module is absent). -/
def check_win (b : Board) (player : ℕ) : Bool :=
  has_winning_path b player

/-- Two cells are adjacent when their offset is one of the six hex offsets. -/
def adjacent (p q : ℤ × ℤ) : Prop := (q.1 - p.1, q.2 - p.2) ∈ DIRECTIONS

instance (p q : ℤ × ℤ) : Decidable (adjacent p q) :=
  inferInstanceAs (Decidable ((q.1 - p.1, q.2 - p.2) ∈ DIRECTIONS))

/-- One traversal step: move to an adjacent, in-bounds cell holding the
player's stone. -/
def step (b : Board) (player : ℕ) (p q : ℤ × ℤ) : Prop :=
  adjacent p q ∧ inB b.size q ∧ b.cell q = player

/-- Reachability through the player's stones under hex adjacency. -/
def Reaches (b : Board) (player : ℕ) : ℤ × ℤ → ℤ × ℤ → Prop :=
  Relation.ReflTransGen (step b player)

/-- The destination edge of the search: bottom row for direction 1,
right column for direction 2. -/
def dest_edge (b : Board) (direction : ℕ) (p : ℤ × ℤ) : Prop :=
  (direction = 1 ∧ p.1 = (b.size : ℤ) - 1) ∨ (direction = 2 ∧ p.2 = (b.size : ℤ) - 1)

/-- Player `player` has a winning connection for search direction
`direction`: a start-edge stone reaches a destination-edge stone. -/
def reach_win (b : Board) (player direction : ℕ) : Prop :=
  ∃ s t : ℤ × ℤ, (if direction = 1 then s.1 = 0 else s.2 = 0) ∧
    inB b.size s ∧ b.cell s = player ∧
    dest_edge b direction t ∧ inB b.size t ∧ b.cell t = player ∧
    Reaches b player s t

/-- The in-bounds cells of the board, as a finset. -/
def allCells (n : ℕ) : Finset (ℤ × ℤ) :=
  (Finset.range n ×ˢ Finset.range n).image (fun rc => ((rc.1 : ℤ), (rc.2 : ℤ)))

/-- Number of in-bounds cells not yet visited: the decreasing measure of the
depth-first searches. -/
def unvis (n : ℕ) (vis : List (ℤ × ℤ)) : ℕ :=
  ((allCells n).filter (fun q => q ∉ vis)).card

lemma mem_allCells {n : ℕ} {p : ℤ × ℤ} : p ∈ allCells n ↔ inB n p := by
  constructor
  · rintro h
    simp only [allCells, Finset.mem_image, Finset.mem_product, Finset.mem_range] at h
    obtain ⟨⟨a, c⟩, ⟨ha, hc⟩, rfl⟩ := h
    simp only [inB]
    refine ⟨by positivity, ?_, by positivity, ?_⟩ <;> simp <;> omega
  · rintro ⟨h1, h2, h3, h4⟩
    simp only [allCells, Finset.mem_image, Finset.mem_product, Finset.mem_range]
    refine ⟨(p.1.toNat, p.2.toNat), ⟨by omega, by omega⟩, ?_⟩
    simp only
    rw [Int.toNat_of_nonneg h1, Int.toNat_of_nonneg h3]

lemma unvis_le (n : ℕ) (vis : List (ℤ × ℤ)) : unvis n vis ≤ n * n := by
  calc ((allCells n).filter (fun q => q ∉ vis)).card
      ≤ (allCells n).card := Finset.card_filter_le _ _
    _ ≤ ((Finset.range n ×ˢ Finset.range n)).card := Finset.card_image_le
    _ = n * n := by rw [Finset.card_product, Finset.card_range]

lemma unvis_cons_lt {n : ℕ} {p : ℤ × ℤ} {vis : List (ℤ × ℤ)}
    (hp : inB n p) (hnv : p ∉ vis) : unvis n (p :: vis) < unvis n vis := by
  apply Finset.card_lt_card
  constructor
  · intro q hq
    simp only [Finset.mem_filter, List.mem_cons] at hq ⊢
    exact ⟨hq.1, fun h => hq.2 (Or.inr h)⟩
  · intro hsub
    have hpmem : p ∈ (allCells n).filter (fun q => q ∉ vis) := by
      simp only [Finset.mem_filter]
      exact ⟨mem_allCells.mpr hp, hnv⟩
    have h2 := hsub hpmem
    simp [Finset.mem_filter] at h2

lemma unvis_anti {n : ℕ} {vis vis1 : List (ℤ × ℤ)} (h : vis ⊆ vis1) :
    unvis n vis1 ≤ unvis n vis := by
  apply Finset.card_le_card
  intro q hq
  simp only [Finset.mem_filter] at hq ⊢
  exact ⟨hq.1, fun hm => hq.2 (h hm)⟩

/-- All cells of `vis1` outside `vis` are saturated: they are off the
destination edge and all their in-bounds same-player neighbours are in `vis1`. -/
def sat_from (b : Board) (player direction : ℕ) (vis vis1 : List (ℤ × ℤ)) : Prop :=
  ∀ u ∈ vis1, u ∈ vis ∨
    (¬ dest_edge b direction u ∧
      ∀ d ∈ DIRECTIONS, inB b.size (u.1 + d.1, u.2 + d.2) →
        b.cell (u.1 + d.1, u.2 + d.2) = player → (u.1 + d.1, u.2 + d.2) ∈ vis1)

lemma sat_from_refl (b : Board) (player direction : ℕ) (vis : List (ℤ × ℤ)) :
    sat_from b player direction vis vis :=
  fun _ hu => Or.inl hu

lemma sat_from_trans {b : Board} {player direction : ℕ}
    {vis vis1 vis2 : List (ℤ × ℤ)}
    (h01 : sat_from b player direction vis vis1)
    (h12 : sat_from b player direction vis1 vis2)
    (hsub : vis1 ⊆ vis2) : sat_from b player direction vis vis2 := by
  intro u hu
  rcases h12 u hu with h | h
  · rcases h01 u h with h' | h'
    · exact Or.inl h'
    · exact Or.inr ⟨h'.1, fun d hd hb hc => hsub (h'.2 d hd hb hc)⟩
  · exact Or.inr h

/-- A fully saturated visited set. -/
def good (b : Board) (player direction : ℕ) (vis : List (ℤ × ℤ)) : Prop :=
  ∀ u ∈ vis, ¬ dest_edge b direction u ∧
    ∀ d ∈ DIRECTIONS, inB b.size (u.1 + d.1, u.2 + d.2) →
      b.cell (u.1 + d.1, u.2 + d.2) = player → (u.1 + d.1, u.2 + d.2) ∈ vis

lemma good_of_sat_from {b : Board} {player direction : ℕ}
    {vis vis1 : List (ℤ × ℤ)}
    (hg : good b player direction vis)
    (hs : sat_from b player direction vis vis1)
    (hsub : vis ⊆ vis1) : good b player direction vis1 := by
  intro u hu
  rcases hs u hu with h | h
  · exact ⟨(hg u h).1, fun d hd hb hc => hsub ((hg u h).2 d hd hb hc)⟩
  · exact h

lemma good_blocks_reach {b : Board} {player direction : ℕ}
    {vis : List (ℤ × ℤ)} (hg : good b player direction vis)
    {s t : ℤ × ℤ} (hr : Reaches b player s t) (hs : s ∈ vis) :
    t ∈ vis ∧ ¬ dest_edge b direction t := by
  induction hr using Relation.ReflTransGen.head_induction_on with
  | refl => exact ⟨hs, (hg t hs).1⟩
  | head hstep _ ih =>
    rename_i a c _
    obtain ⟨hadj, hbnd, hcell⟩ := hstep
    have hd := (hg a hs).2 (c.1 - a.1, c.2 - a.2) hadj
    have hc : (a.1 + (c.1 - a.1), a.2 + (c.2 - a.2)) = c := by
      ext <;> ring
    rw [hc] at hd
    exact ih (hd hbnd hcell)

lemma dfs_nbrs_sound {b : Board} {player direction : ℕ}
    {rec : ℤ × ℤ → List (ℤ × ℤ) → Bool × List (ℤ × ℤ)}
    (hrec : ∀ q vis vis1, inB b.size q → b.cell q = player →
      rec q vis = (true, vis1) →
      ∃ t, dest_edge b direction t ∧ inB b.size t ∧ b.cell t = player ∧
        Reaches b player q t) :
    ∀ ds p vis vis1, ds ⊆ DIRECTIONS →
      dfs_nbrs b player rec p vis ds = (true, vis1) →
      ∃ t, dest_edge b direction t ∧ inB b.size t ∧ b.cell t = player ∧
        Reaches b player p t := by
  intro ds
  induction ds with
  | nil => intro p vis vis1 _ h; simp [dfs_nbrs] at h
  | cons d ds ih =>
    intro p vis vis1 hsub h
    simp only [dfs_nbrs] at h
    by_cases hg : inB b.size (p.1 + d.1, p.2 + d.2) ∧
        (p.1 + d.1, p.2 + d.2) ∉ vis ∧ b.cell (p.1 + d.1, p.2 + d.2) = player
    · rw [if_pos hg] at h
      rcases hrq : rec (p.1 + d.1, p.2 + d.2) vis with ⟨r, w⟩
      rw [hrq] at h
      cases r with
      | true =>
        obtain ⟨t, htd, htB, htP, htR⟩ :=
          hrec _ _ _ hg.1 hg.2.2 hrq
        refine ⟨t, htd, htB, htP, Relation.ReflTransGen.head ?_ htR⟩
        refine ⟨?_, hg.1, hg.2.2⟩
        have e1 : p.1 + d.1 - p.1 = d.1 := by ring
        have e2 : p.2 + d.2 - p.2 = d.2 := by ring
        show ((p.1 + d.1, p.2 + d.2).1 - p.1, (p.1 + d.1, p.2 + d.2).2 - p.2) ∈ DIRECTIONS
        simp only [e1, e2]
        exact hsub (List.mem_cons_self d ds)
      | false =>
        exact ih p w vis1 (fun x hx => hsub (List.mem_cons_of_mem d hx)) h
    · rw [if_neg hg] at h
      exact ih p vis vis1 (fun x hx => hsub (List.mem_cons_of_mem d hx)) h

lemma dfs_path_sound {b : Board} {player direction : ℕ} :
    ∀ fuel p vis res, inB b.size p →
      dfs_path b player direction fuel p vis = (true, res) →
      ∃ t, dest_edge b direction t ∧ inB b.size t ∧ b.cell t = player ∧
        Reaches b player p t := by
  intro fuel
  induction fuel with
  | zero => intro p vis res _ h; simp [dfs_path] at h
  | succ fuel ih =>
    intro p vis res hp h
    rw [dfs_path] at h
    split_ifs at h with h1 h2 h3
    · have hc : b.cell p = player := by
        have := congrArg Prod.fst h
        simpa using this
      exact ⟨p, Or.inl ⟨h1.1, h1.2⟩, hp, hc, Relation.ReflTransGen.refl⟩
    · have hc : b.cell p = player := by
        have := congrArg Prod.fst h
        simpa using this
      exact ⟨p, Or.inr ⟨h2.1, h2.2⟩, hp, hc, Relation.ReflTransGen.refl⟩
    · simp at h
    · exact dfs_nbrs_sound (fun q v v1 hq _ hh => ih q v v1 hq hh)
        DIRECTIONS p (p :: vis) res (fun x hx => hx) h

lemma dfs_nbrs_fail {b : Board} {player direction : ℕ} {F : ℕ}
    {rec : ℤ × ℤ → List (ℤ × ℤ) → Bool × List (ℤ × ℤ)}
    (hrecFail : ∀ q vis w, inB b.size q → b.cell q = player → q ∉ vis →
      unvis b.size vis < F → rec q vis = (false, w) →
      vis ⊆ w ∧ q ∈ w ∧ sat_from b player direction vis w) :
    ∀ ds p vis vis1, ds ⊆ DIRECTIONS → unvis b.size vis < F →
      dfs_nbrs b player rec p vis ds = (false, vis1) →
      vis ⊆ vis1 ∧ sat_from b player direction vis vis1 ∧
        ∀ d ∈ ds, inB b.size (p.1 + d.1, p.2 + d.2) →
          b.cell (p.1 + d.1, p.2 + d.2) = player → (p.1 + d.1, p.2 + d.2) ∈ vis1 := by
  intro ds
  induction ds with
  | nil =>
    intro p vis vis1 _ _ h
    simp only [dfs_nbrs] at h
    obtain ⟨-, rfl⟩ : false = false ∧ vis = vis1 := by
      constructor
      · rfl
      · exact congrArg Prod.snd h
    exact ⟨fun x hx => hx, sat_from_refl b player direction vis, by simp⟩
  | cons d ds ih =>
    intro p vis vis1 hsub hF h
    simp only [dfs_nbrs] at h
    by_cases hg : inB b.size (p.1 + d.1, p.2 + d.2) ∧
        (p.1 + d.1, p.2 + d.2) ∉ vis ∧ b.cell (p.1 + d.1, p.2 + d.2) = player
    · rw [if_pos hg] at h
      rcases hrq : rec (p.1 + d.1, p.2 + d.2) vis with ⟨r, w⟩
      rw [hrq] at h
      cases r with
      | true => simp at h
      | false =>
        obtain ⟨hvw, hqw, hsw⟩ := hrecFail _ _ _ hg.1 hg.2.2 hg.2.1 hF hrq
        have hF2 : unvis b.size w < F := lt_of_le_of_lt (unvis_anti hvw) hF
        obtain ⟨hw1, hs1, hall⟩ :=
          ih p w vis1 (fun x hx => hsub (List.mem_cons_of_mem d hx)) hF2 h
        refine ⟨fun x hx => hw1 (hvw hx), sat_from_trans hsw hs1 hw1, ?_⟩
        intro d2 hd2 hbnd hcell
        rcases List.mem_cons.mp hd2 with rfl | hd2
        · exact hw1 hqw
        · exact hall d2 hd2 hbnd hcell
    · rw [if_neg hg] at h
      obtain ⟨hw1, hs1, hall⟩ :=
        ih p vis vis1 (fun x hx => hsub (List.mem_cons_of_mem d hx)) hF h
      refine ⟨hw1, hs1, ?_⟩
      intro d2 hd2 hbnd hcell
      rcases List.mem_cons.mp hd2 with rfl | hd2
      · push_neg at hg
        have hqv : (p.1 + d2.1, p.2 + d2.2) ∈ vis := by
          by_contra hq
          exact hg hbnd hq hcell
        exact hw1 hqv
      · exact hall d2 hd2 hbnd hcell

lemma dfs_path_fail {b : Board} {player direction : ℕ} :
    ∀ fuel p vis vis1,
      unvis b.size vis < fuel → inB b.size p → b.cell p = player → p ∉ vis →
      dfs_path b player direction fuel p vis = (false, vis1) →
      vis ⊆ vis1 ∧ p ∈ vis1 ∧ sat_from b player direction vis vis1 := by
  intro fuel
  induction fuel with
  | zero => intro p vis vis1 hF _ _ _ _; omega
  | succ fuel ih =>
    intro p vis vis1 hF hp hcell hnv h
    rw [dfs_path] at h
    split_ifs at h with h1 h2 h3
    · have := congrArg Prod.fst h
      simp [hcell] at this
    · have := congrArg Prod.fst h
      simp [hcell] at this
    · exact absurd hcell h3
    · have hF2 : unvis b.size (p :: vis) < fuel := by
        have := unvis_cons_lt hp hnv
        omega
      obtain ⟨hA, hS, hAll⟩ :=
        dfs_nbrs_fail
          (fun q v w hq hc hqv hf hh => ih q v w hf hq hc hqv hh)
          DIRECTIONS p (p :: vis) vis1 (fun x hx => hx) hF2 h
      refine ⟨fun x hx => hA (List.mem_cons_of_mem p hx),
        hA (List.mem_cons_self p vis), ?_⟩
      intro u hu
      rcases hS u hu with hm | hgood
      · rcases List.mem_cons.mp hm with rfl | hm
        · refine Or.inr ⟨?_, hAll⟩
          rintro (⟨hd1, he1⟩ | ⟨hd2, he2⟩)
          · exact h1 ⟨hd1, he1⟩
          · exact h2 ⟨hd2, he2⟩
        · exact Or.inl hm
      · exact Or.inr hgood

lemma start_cell_inB {n : ℕ} {direction : ℕ} {c : ℤ}
    (h0 : 0 ≤ c) (hn : c < (n : ℤ)) : inB n (start_cell direction c) := by
  unfold start_cell inB
  split_ifs <;> dsimp only <;> omega

lemma start_loop_true {b : Board} {player direction : ℕ} :
    ∀ cs vis, (∀ c ∈ cs, 0 ≤ c ∧ c < (b.size : ℤ)) →
      start_loop b player direction cs vis = true →
      ∃ c, 0 ≤ c ∧ c < (b.size : ℤ) ∧
        b.cell (start_cell direction c) = player ∧
        ∃ t, dest_edge b direction t ∧ inB b.size t ∧ b.cell t = player ∧
          Reaches b player (start_cell direction c) t := by
  intro cs
  induction cs with
  | nil => intro vis _ h; simp [start_loop] at h
  | cons c cs ih =>
    intro vis hbnd h
    simp only [start_loop] at h
    by_cases hg : b.cell (start_cell direction c) = player ∧ start_cell direction c ∉ vis
    · rw [if_pos hg] at h
      rcases hdfs : dfs_path b player direction (b.size * b.size + 1)
          (start_cell direction c) vis with ⟨r, w⟩
      rw [hdfs] at h
      cases r with
      | true =>
        obtain ⟨hc0, hcn⟩ := hbnd c (List.mem_cons_self c cs)
        obtain ⟨t, htd, htB, htP, htR⟩ :=
          dfs_path_sound _ _ _ _ (start_cell_inB hc0 hcn) hdfs
        exact ⟨c, hc0, hcn, hg.1, t, htd, htB, htP, htR⟩
      | false =>
        exact ih w (fun x hx => hbnd x (List.mem_cons_of_mem c hx)) h
    · rw [if_neg hg] at h
      exact ih vis (fun x hx => hbnd x (List.mem_cons_of_mem c hx)) h

lemma start_loop_false {b : Board} {player direction : ℕ} :
    ∀ cs vis, (∀ c ∈ cs, 0 ≤ c ∧ c < (b.size : ℤ)) →
      good b player direction vis →
      start_loop b player direction cs vis = false →
      ∃ vis1, vis ⊆ vis1 ∧ good b player direction vis1 ∧
        ∀ c ∈ cs, b.cell (start_cell direction c) = player →
          start_cell direction c ∈ vis1 := by
  intro cs
  induction cs with
  | nil => intro vis _ hg _; exact ⟨vis, fun x hx => hx, hg, by simp⟩
  | cons c cs ih =>
    intro vis hbnd hg h
    simp only [start_loop] at h
    by_cases hgu : b.cell (start_cell direction c) = player ∧ start_cell direction c ∉ vis
    · rw [if_pos hgu] at h
      rcases hdfs : dfs_path b player direction (b.size * b.size + 1)
          (start_cell direction c) vis with ⟨r, w⟩
      rw [hdfs] at h
      cases r with
      | true => simp at h
      | false =>
        obtain ⟨hc0, hcn⟩ := hbnd c (List.mem_cons_self c cs)
        have hF : unvis b.size vis < b.size * b.size + 1 :=
          Nat.lt_succ_of_le (unvis_le _ _)
        obtain ⟨hvw, hpw, hsw⟩ :=
          dfs_path_fail _ _ _ _ hF (start_cell_inB hc0 hcn) hgu.1 hgu.2 hdfs
        obtain ⟨vis1, hw1, hg1, hrest⟩ :=
          ih w (fun x hx => hbnd x (List.mem_cons_of_mem c hx))
            (good_of_sat_from hg hsw hvw) h
        refine ⟨vis1, fun x hx => hw1 (hvw hx), hg1, ?_⟩
        intro c2 hc2 hcell
        rcases List.mem_cons.mp hc2 with rfl | hc2
        · exact hw1 hpw
        · exact hrest c2 hc2 hcell
    · rw [if_neg hgu] at h
      obtain ⟨vis1, hw1, hg1, hrest⟩ :=
        ih vis (fun x hx => hbnd x (List.mem_cons_of_mem c hx)) hg h
      refine ⟨vis1, hw1, hg1, ?_⟩
      intro c2 hc2 hcell
      rcases List.mem_cons.mp hc2 with rfl | hc2
      · push_neg at hgu
        exact hw1 (hgu hcell)
      · exact hrest c2 hc2 hcell

lemma hwp_iff_1 (b : Board) : has_winning_path b 1 = true ↔ reach_win b 1 1 := by
  unfold has_winning_path
  rw [if_pos rfl]
  have hbnd : ∀ c ∈ (List.range b.size).map (Nat.cast : ℕ → ℤ),
      0 ≤ c ∧ c < (b.size : ℤ) := by
    intro c hc
    obtain ⟨k, hk, rfl⟩ := List.mem_map.mp hc
    have hk2 := List.mem_range.mp hk
    constructor <;> omega
  constructor
  · intro h
    obtain ⟨c, h0, hn, hcell, t, htd, htB, htP, htR⟩ := start_loop_true _ [] hbnd h
    have hsc : start_cell 1 c = ((0 : ℤ), c) := by simp [start_cell]
    rw [hsc] at hcell htR
    refine ⟨(0, c), t, by simp, ?_, hcell, htd, htB, htP, htR⟩
    have := @start_cell_inB b.size 1 c h0 hn
    rwa [hsc] at this
  · rintro ⟨s, t, hif, hsB, hsP, htd, htB, htP, hR⟩
    rcases hsl : start_loop b 1 1 ((List.range b.size).map (Nat.cast : ℕ → ℤ)) [] with _ | _
    · exfalso
      obtain ⟨vis1, -, hg1, hmem⟩ :=
        start_loop_false _ [] hbnd (by intro u hu; simp at hu) hsl
      have hs1 : s.1 = 0 := by simpa using hif
      have hc2 : s.2 ∈ (List.range b.size).map (Nat.cast : ℕ → ℤ) := by
        obtain ⟨-, -, h3, h4⟩ := hsB
        exact List.mem_map.mpr ⟨s.2.toNat, List.mem_range.mpr (by omega),
          Int.toNat_of_nonneg h3⟩
      have hseq : start_cell 1 s.2 = s := by
        simp only [start_cell, if_pos rfl]
        ext
        · exact hs1.symm
        · rfl
      have hsv : s ∈ vis1 := by
        have := hmem s.2 hc2
        rw [hseq] at this
        exact this hsP
      exact (good_blocks_reach hg1 hR hsv).2 htd
    · rfl

lemma hwp_iff_2 (b : Board) : has_winning_path b 2 = true ↔ reach_win b 2 2 := by
  unfold has_winning_path
  rw [if_neg (by decide)]
  have hbnd : ∀ c ∈ (List.range b.size).map (Nat.cast : ℕ → ℤ),
      0 ≤ c ∧ c < (b.size : ℤ) := by
    intro c hc
    obtain ⟨k, hk, rfl⟩ := List.mem_map.mp hc
    have hk2 := List.mem_range.mp hk
    constructor <;> omega
  constructor
  · intro h
    obtain ⟨c, h0, hn, hcell, t, htd, htB, htP, htR⟩ := start_loop_true _ [] hbnd h
    have hsc : start_cell 2 c = (c, (0 : ℤ)) := by simp [start_cell]
    rw [hsc] at hcell htR
    refine ⟨(c, 0), t, by simp, ?_, hcell, htd, htB, htP, htR⟩
    have := @start_cell_inB b.size 2 c h0 hn
    rwa [hsc] at this
  · rintro ⟨s, t, hif, hsB, hsP, htd, htB, htP, hR⟩
    rcases hsl : start_loop b 2 2 ((List.range b.size).map (Nat.cast : ℕ → ℤ)) [] with _ | _
    · exfalso
      obtain ⟨vis1, -, hg1, hmem⟩ :=
        start_loop_false _ [] hbnd (by intro u hu; simp at hu) hsl
      have hs2 : s.2 = 0 := by simpa using hif
      have hc1 : s.1 ∈ (List.range b.size).map (Nat.cast : ℕ → ℤ) := by
        obtain ⟨h1, h2, -, -⟩ := hsB
        exact List.mem_map.mpr ⟨s.1.toNat, List.mem_range.mpr (by omega),
          Int.toNat_of_nonneg h1⟩
      have hseq : start_cell 2 s.1 = s := by
        simp only [start_cell, if_neg (by decide : ¬(2 = 1))]
        ext
        · rfl
        · exact hs2.symm
      have hsv : s ∈ vis1 := by
        have := hmem s.1 hc1
        rw [hseq] at this
        exact this hsP
      exact (good_blocks_reach hg1 hR hsv).2 htd
    · rfl

/-- A chain witnessing a win: a nonempty list of in-bounds cells, all holding
the player's stones, in which consecutive cells are hex-adjacent. -/
def win_chain (b : Board) (player : ℕ) (l : List (ℤ × ℤ)) : Prop :=
  (∀ p ∈ l, inB b.size p ∧ b.cell p = player) ∧ List.Chain' adjacent l

/-- Player `player` joins the top row to the bottom row by a chain. -/
def wins_top_bottom (b : Board) (player : ℕ) : Prop :=
  ∃ l s t, win_chain b player l ∧ l.head? = some s ∧ l.getLast? = some t ∧
    s.1 = 0 ∧ t.1 = (b.size : ℤ) - 1

/-- Player `player` joins the left column to the right column by a chain. -/
def wins_left_right (b : Board) (player : ℕ) : Prop :=
  ∃ l s t, win_chain b player l ∧ l.head? = some s ∧ l.getLast? = some t ∧
    s.2 = 0 ∧ t.2 = (b.size : ℤ) - 1

lemma chain_reaches {b : Board} {player : ℕ} :
    ∀ l s t, (∀ p ∈ l, inB b.size p ∧ b.cell p = player) →
      List.Chain' adjacent l → l.head? = some s → l.getLast? = some t →
      Reaches b player s t := by
  intro l
  induction l with
  | nil => intro s t _ _ hh _; simp at hh
  | cons x xs ih =>
    intro s t hall hch hh hl
    obtain rfl : x = s := by simpa using hh
    cases xs with
    | nil =>
      obtain rfl : x = t := by simpa using hl
      exact Relation.ReflTransGen.refl
    | cons y ys =>
      rw [List.chain'_cons] at hch
      rw [List.getLast?_cons_cons] at hl
      have hy := hall y (by simp)
      have hrest : Reaches b player y t :=
        ih y t (fun p hp => hall p (List.mem_cons_of_mem x hp)) hch.2 rfl hl
      exact Relation.ReflTransGen.head ⟨hch.1, hy.1, hy.2⟩ hrest

lemma reaches_chain {b : Board} {player : ℕ} {s t : ℤ × ℤ}
    (h : Reaches b player s t) (hsB : inB b.size s) (hsP : b.cell s = player) :
    ∃ l, (∀ p ∈ l, inB b.size p ∧ b.cell p = player) ∧ List.Chain' adjacent l ∧
      l.head? = some s ∧ l.getLast? = some t := by
  induction h with
  | refl => exact ⟨[s], by simpa using ⟨hsB, hsP⟩, by simp, rfl, rfl⟩
  | tail hR hstep ih =>
    rename_i u c
    obtain ⟨l, hall, hch, hh, hl⟩ := ih
    obtain ⟨hadj, hcB, hcP⟩ := hstep
    refine ⟨l ++ [c], ?_, ?_, ?_, List.getLast?_concat l⟩
    · intro p hp
      rcases List.mem_append.mp hp with hp | hp
      · exact hall p hp
      · obtain rfl : p = c := by simpa using hp
        exact ⟨hcB, hcP⟩
    · refine List.Chain'.append hch (by simp) ?_
      intro x hx y hy
      rw [hl] at hx
      obtain rfl : u = x := by simpa using hx
      obtain rfl : c = y := by simpa using hy
      exact hadj
    · cases l with
      | nil => simp at hh
      | cons a l2 => simpa using hh

lemma reach_win_iff_tb (b : Board) (player : ℕ) :
    reach_win b player 1 ↔ wins_top_bottom b player := by
  constructor
  · rintro ⟨s, t, hif, hsB, hsP, htd, -, -, hR⟩
    obtain ⟨l, hall, hch, hh, hl⟩ := reaches_chain hR hsB hsP
    have hs1 : s.1 = 0 := by simpa using hif
    have ht1 : t.1 = (b.size : ℤ) - 1 := by
      rcases htd with ⟨-, h⟩ | ⟨h, -⟩
      · exact h
      · omega
    exact ⟨l, s, t, ⟨hall, hch⟩, hh, hl, hs1, ht1⟩
  · rintro ⟨l, s, t, ⟨hall, hch⟩, hh, hl, hs1, ht1⟩
    have hs := hall s (by cases l with
      | nil => simp at hh
      | cons a l2 => obtain rfl : a = s := by simpa using hh
                     exact List.mem_cons_self a l2)
    have ht := hall t (List.mem_of_mem_getLast? hl)
    exact ⟨s, t, by simpa using hs1, hs.1, hs.2, Or.inl ⟨rfl, ht1⟩, ht.1, ht.2,
      chain_reaches l s t hall hch hh hl⟩

lemma reach_win_iff_lr (b : Board) (player : ℕ) :
    reach_win b player 2 ↔ wins_left_right b player := by
  constructor
  · rintro ⟨s, t, hif, hsB, hsP, htd, -, -, hR⟩
    obtain ⟨l, hall, hch, hh, hl⟩ := reaches_chain hR hsB hsP
    have hs2 : s.2 = 0 := by simpa using hif
    have ht2 : t.2 = (b.size : ℤ) - 1 := by
      rcases htd with ⟨h, -⟩ | ⟨-, h⟩
      · omega
      · exact h
    exact ⟨l, s, t, ⟨hall, hch⟩, hh, hl, hs2, ht2⟩
  · rintro ⟨l, s, t, ⟨hall, hch⟩, hh, hl, hs2, ht2⟩
    have hs := hall s (by cases l with
      | nil => simp at hh
      | cons a l2 => obtain rfl : a = s := by simpa using hh
                     exact List.mem_cons_self a l2)
    have ht := hall t (List.mem_of_mem_getLast? hl)
    exact ⟨s, t, by simpa using hs2, hs.1, hs.2, Or.inr ⟨rfl, ht2⟩, ht.1, ht.2,
      chain_reaches l s t hall hch hh hl⟩

/-- Claim C2: `check_win(board, player)` returns true for player 1 exactly
when a chain of player-1 stones (consecutive cells adjacent under the six hex
offsets) joins a cell in row 0 to a cell in row N-1, for player 2 exactly when
such a chain of player-2 stones joins column 0 to column N-1, and returns
false whenever the player's start edge holds none of their stones. -/
theorem C2_check_win_correct (b : Board) :
    (check_win b 1 = true ↔ wins_top_bottom b 1) ∧
    (check_win b 2 = true ↔ wins_left_right b 2) ∧
    ((∀ c : ℤ, 0 ≤ c → c < (b.size : ℤ) → b.cell (0, c) ≠ 1) →
      check_win b 1 = false) ∧
    ((∀ r : ℤ, 0 ≤ r → r < (b.size : ℤ) → b.cell (r, 0) ≠ 2) →
      check_win b 2 = false) := by
  have h1 : check_win b 1 = true ↔ wins_top_bottom b 1 :=
    (hwp_iff_1 b).trans (reach_win_iff_tb b 1)
  have h2 : check_win b 2 = true ↔ wins_left_right b 2 :=
    (hwp_iff_2 b).trans (reach_win_iff_lr b 2)
  refine ⟨h1, h2, ?_, ?_⟩
  · intro hnone
    rcases hcw : check_win b 1 with _ | _
    · rfl
    · exfalso
      obtain ⟨l, s, t, ⟨hall, hch⟩, hh, hl, hs1, ht1⟩ := h1.mp hcw
      have hs := hall s (List.mem_of_mem_head? (by simp [hh]))
      have hse : ((0 : ℤ), s.2) = s := by
        ext
        · exact hs1.symm
        · rfl
      have hcell : b.cell (0, s.2) = 1 := by rw [hse]; exact hs.2
      exact hnone s.2 hs.1.2.2.1 hs.1.2.2.2 hcell
  · intro hnone
    rcases hcw : check_win b 2 with _ | _
    · rfl
    · exfalso
      obtain ⟨l, s, t, ⟨hall, hch⟩, hh, hl, hs2, ht2⟩ := h2.mp hcw
      have hs := hall s (List.mem_of_mem_head? (by simp [hh]))
      have hse : (s.1, (0 : ℤ)) = s := by
        ext
        · rfl
        · exact hs2.symm
      have hcell : b.cell (s.1, 0) = 2 := by rw [hse]; exact hs.2
      exact hnone s.1 hs.1.1 hs.1.2.1 hcell

/-- Witness for C2: the literal 3-by-3 vertical chain of the specification is
a player-1 win, and the empty board is not. -/
theorem C2_check_win_correct_witness :
    check_win ⟨3, fun p => if p = (0, 0) ∨ p = (1, 0) ∨ p = (2, 0) then 1 else 0⟩ 1 = true ∧
    check_win ⟨3, fun _ => 0⟩ 1 = false := by
  constructor
  · exact (C2_check_win_correct _).1.mpr
      ⟨[(0, 0), (1, 0), (2, 0)], (0, 0), (2, 0),
        ⟨by decide,
          List.Chain.cons (by decide) (List.Chain.cons (by decide) List.Chain.nil)⟩,
        rfl, rfl, rfl, by decide⟩
  · exact (C2_check_win_correct _).2.2.1 (fun c _ _ h => by simp at h)

/-- Stone relabelling used by the transposition symmetry: swaps players
1 and 2 and keeps everything else. -/
def relabel (x : ℕ) : ℕ := if x = 1 then 2 else if x = 2 then 1 else x

/-- The transposed board: the stone at `(r, c)` moves to `(c, r)` and the two
players' stones are interchanged. -/
def transpose (b : Board) : Board :=
  ⟨b.size, fun p => relabel (b.cell (p.2, p.1))⟩

lemma relabel_eq_two {x : ℕ} : relabel x = 2 ↔ x = 1 := by
  unfold relabel
  split_ifs with ha hb
  · simp [ha]
  · constructor <;> intro h <;> omega
  · constructor <;> intro h <;> omega

lemma adjacent_swap {p q : ℤ × ℤ} :
    adjacent p q ↔ adjacent (p.2, p.1) (q.2, q.1) := by
  unfold adjacent DIRECTIONS
  simp only [List.mem_cons, List.not_mem_nil, or_false, Prod.mk.injEq]
  omega

lemma inB_swap {n : ℕ} {p : ℤ × ℤ} : inB n (p.2, p.1) ↔ inB n p := by
  unfold inB
  dsimp only
  omega

lemma step_swap_12 {b : Board} {p q : ℤ × ℤ} :
    step b 1 p q ↔ step (transpose b) 2 (p.2, p.1) (q.2, q.1) := by
  unfold step
  constructor
  · rintro ⟨ha, hb, hc⟩
    refine ⟨adjacent_swap.mp ha, inB_swap.mpr hb, ?_⟩
    show relabel (b.cell ((q.2, q.1).2, (q.2, q.1).1)) = 2
    exact relabel_eq_two.mpr hc
  · rintro ⟨ha, hb, hc⟩
    refine ⟨adjacent_swap.mpr ha, inB_swap.mp hb, ?_⟩
    have hc2 : relabel (b.cell ((q.2, q.1).2, (q.2, q.1).1)) = 2 := hc
    exact relabel_eq_two.mp hc2

lemma reaches_swap_12 {b : Board} {p q : ℤ × ℤ} (h : Reaches b 1 p q) :
    Reaches (transpose b) 2 (p.2, p.1) (q.2, q.1) := by
  induction h with
  | refl => exact Relation.ReflTransGen.refl
  | tail hR hstep ih =>
    exact Relation.ReflTransGen.tail ih (step_swap_12.mp hstep)

lemma reaches_swap_21 {b : Board} {p q : ℤ × ℤ}
    (h : Reaches (transpose b) 2 p q) : Reaches b 1 (p.2, p.1) (q.2, q.1) := by
  induction h with
  | refl => exact Relation.ReflTransGen.refl
  | tail hR hstep ih =>
    refine Relation.ReflTransGen.tail ih ?_
    rename_i u c
    have := step_swap_12 (b := b) (p := (u.2, u.1)) (q := (c.2, c.1))
    simp only [show ((u.2, u.1).2, (u.2, u.1).1) = u from rfl,
      show ((c.2, c.1).2, (c.2, c.1).1) = c from rfl] at this
    exact this.mpr hstep

/-- Claim C8: `check_win(B, 1)` equals `check_win(T(B), 2)` where `T(B)` is
the transposed board with the stone labels 1 and 2 interchanged. -/
theorem C8_transpose_symmetry (b : Board) :
    check_win b 1 = check_win (transpose b) 2 := by
  have hiff : check_win b 1 = true ↔ check_win (transpose b) 2 = true := by
    have e1 : check_win b 1 = true ↔ reach_win b 1 1 := hwp_iff_1 b
    have e2 : check_win (transpose b) 2 = true ↔ reach_win (transpose b) 2 2 :=
      hwp_iff_2 (transpose b)
    rw [e1, e2]
    constructor
    · rintro ⟨s, t, hif, hsB, hsP, htd, htB, htP, hR⟩
      refine ⟨(s.2, s.1), (t.2, t.1), ?_, inB_swap.mpr hsB, ?_, ?_,
        inB_swap.mpr htB, ?_, reaches_swap_12 hR⟩
      · simpa using hif
      · show relabel (b.cell ((s.2, s.1).2, (s.2, s.1).1)) = 2
        rw [show ((s.2, s.1).2, (s.2, s.1).1) = s from rfl]
        exact relabel_eq_two.mpr hsP
      · refine Or.inr ⟨rfl, ?_⟩
        rcases htd with ⟨-, h⟩ | ⟨h, -⟩
        · exact h
        · omega
      · show relabel (b.cell ((t.2, t.1).2, (t.2, t.1).1)) = 2
        rw [show ((t.2, t.1).2, (t.2, t.1).1) = t from rfl]
        exact relabel_eq_two.mpr htP
    · rintro ⟨s, t, hif, hsB, hsP, htd, htB, htP, hR⟩
      have hsP2 : b.cell (s.2, s.1) = 1 := by
        have : relabel (b.cell (s.2, s.1)) = 2 := hsP
        exact relabel_eq_two.mp this
      have htP2 : b.cell (t.2, t.1) = 1 := by
        have : relabel (b.cell (t.2, t.1)) = 2 := htP
        exact relabel_eq_two.mp this
      refine ⟨(s.2, s.1), (t.2, t.1), ?_, inB_swap.mpr hsB, hsP2, ?_,
        inB_swap.mpr htB, htP2, reaches_swap_21 hR⟩
      · simpa using hif
      · refine Or.inl ⟨rfl, ?_⟩
        rcases htd with ⟨h, -⟩ | ⟨-, h⟩
        · omega
        · exact h
  rcases ha : check_win b 1 with _ | _ <;> rcases hb : check_win (transpose b) 2 with _ | _
  · rfl
  · rw [ha] at hiff
    exact absurd (hiff.mpr hb) (by simp)
  · rw [hb] at hiff
    exact absurd (hiff.mp ha) (by simp)
  · rfl

deriving instance DecidableEq for Except

/-- Python float values reached by the search scores: signed infinities from
`float('-inf')`/`float('inf')` and integers. -/
inductive PyVal where
  | ninf : PyVal
  | num : ℤ → PyVal
  | pinf : PyVal
deriving DecidableEq, Repr

/-- The `<` comparison of Python on these values. -/
def PyVal.lt : PyVal → PyVal → Bool
  | ninf, ninf => false
  | ninf, _ => true
  | num _, ninf => false
  | num a, num b2 => decide (a < b2)
  | num _, pinf => true
  | pinf, _ => false

/-- The `<=` comparison of Python on these values. -/
def PyVal.le : PyVal → PyVal → Bool
  | ninf, _ => true
  | num _, ninf => false
  | num a, num b2 => decide (a ≤ b2)
  | num _, pinf => true
  | pinf, pinf => true
  | pinf, _ => false

/-- Python `max(a, b)`: returns `b` only when it is strictly greater. -/
def PyVal.pymax (a b2 : PyVal) : PyVal := if PyVal.lt a b2 then b2 else a

/-- Python `min(a, b)`: returns `b` only when it is strictly smaller. -/
def PyVal.pymin (a b2 : PyVal) : PyVal := if PyVal.lt b2 a then b2 else a

/-- The integer behind a finite value (the searches only subtract finite
distances). -/
def PyVal.toZ : PyVal → ℤ
  | num z => z
  | _ => 0

/-- Embedding of the `HexState` class of `back.py`. The constructor sets
only `board`, `size` and `is_black_turn`; the attribute `player_turn` read
by `clone_state` is never created, which `Option` records: `none` means the
attribute is absent and reading it raises `AttributeError`. -/
structure HexState where
  size : ℕ
  board : ℤ × ℤ → ℕ
  is_black_turn : Bool
  player_turn : Option Bool

/-- The board carried by a state, as passed to `check_win` and friends. -/
def HexState.toBoard (s : HexState) : Board := ⟨s.size, s.board⟩

/-- Embedding of `clone_state` from `back.py`: it constructs
`HexState(len(state.board), state.player_turn)` — reading the attribute
`player_turn`, which `HexState.__init__` never defines, so the read raises
`AttributeError` unless some earlier assignment created it. -/
def clone_state (s : HexState) : Except String HexState :=
  match s.player_turn with
  | none => .error "AttributeError"
  | some pt => .ok ⟨s.size, s.board, pt, none⟩

/-- Embedding of `get_valid_moves` from `back.py`: every empty cell, in
row-major order. -/
def get_valid_moves (s : HexState) : List (ℕ × ℕ) :=
  (List.range s.size).flatMap (fun (row : ℕ) =>
    ((List.range s.size).filter (fun (col : ℕ) => s.board ((row : ℤ), (col : ℤ)) == 0)).map
      (fun col => (row, col)))

/-- The `empty_count = sum(row.count(0) for row in state.board)` computation
of `find_best_move`. -/
def empty_count (s : HexState) : ℕ :=
  ((List.range s.size).map (fun (row : ℕ) =>
    ((List.range s.size).filter (fun (col : ℕ) => s.board ((row : ℤ), (col : ℤ)) == 0)).length)).sum

/-- Embedding of `shortest_path_distance` from `back.py`. Every branch
produces an integer; the result is wrapped in `PyVal` because
`evaluate_state` compares it against `float('inf')`. -/
def shortest_path_distance (bd : Board) (player : ℕ) : PyVal :=
  let n := bd.size
  if player = 1 then
    let top := (List.range n).any (fun (c : ℕ) => bd.cell (0, (c : ℤ)) == player)
    let bottom := (List.range n).any (fun (c : ℕ) => bd.cell ((n : ℤ) - 1, (c : ℤ)) == player)
    let min_distance : ℤ :=
      if ¬ (top && bottom) = true then (n : ℤ)
      else
        let ec : ℕ := ((((List.range n).filter (fun (r : ℕ) => decide (1 ≤ r) && decide (r < n - 1))).map
          (fun (r : ℕ) => ((List.range n).filter (fun (c : ℕ) => bd.cell ((r : ℤ), (c : ℤ)) == 0)).length)).sum)
        ((ec / n : ℕ) : ℤ)
    if min_distance > 0 then PyVal.num min_distance else PyVal.num 1
  else
    let left := (List.range n).any (fun (r : ℕ) => bd.cell ((r : ℤ), 0) == player)
    let right := (List.range n).any (fun (r : ℕ) => bd.cell ((r : ℤ), (n : ℤ) - 1) == player)
    let min_distance : ℤ :=
      if ¬ (left && right) = true then (n : ℤ)
      else
        let ec : ℕ := (((List.range n).map (fun (r : ℕ) =>
          (((List.range n).filter (fun (c : ℕ) => decide (1 ≤ c) && decide (c < n - 1))).filter
            (fun (c : ℕ) => bd.cell ((r : ℤ), (c : ℤ)) == 0)).length)).sum)
        ((ec / n : ℕ) : ℤ)
    if min_distance > 0 then PyVal.num min_distance else PyVal.num 1

/-- The inner loop of the `dfs` closure of `has_connection` from `back.py`;
the bound checks come in the source order (bounds, stone, not visited). -/
def conn_nbrs (bd : Board) (player : ℕ)
    (rec : ℤ × ℤ → List (ℤ × ℤ) → Bool × List (ℤ × ℤ)) :
    ℤ × ℤ → List (ℤ × ℤ) → List (ℤ × ℤ) → Bool × List (ℤ × ℤ)
  | _, vis, [] => (false, vis)
  | p, vis, d :: ds =>
    let q : ℤ × ℤ := (p.1 + d.1, p.2 + d.2)
    if inB bd.size q ∧ bd.cell q = player ∧ q ∉ vis then
      match rec q vis with
      | (true, vis1) => (true, vis1)
      | (false, vis1) => conn_nbrs bd player rec p vis1 ds
    else conn_nbrs bd player rec p vis ds

/-- The `dfs` closure of `has_connection` from `back.py`, fuelled. -/
def conn_dfs (bd : Board) (player : ℕ) (target : ℤ × ℤ) :
    ℕ → ℤ × ℤ → List (ℤ × ℤ) → Bool × List (ℤ × ℤ)
  | 0, _, vis => (false, vis)
  | fuel + 1, p, vis =>
    if p = target then (true, vis)
    else conn_nbrs bd player (conn_dfs bd player target fuel) p (p :: vis) DIRECTIONS

/-- Embedding of `has_connection` from `back.py`. -/
def has_connection (bd : Board) (sr sc er ec : ℤ) (player : ℕ) : Bool :=
  (conn_dfs bd player (er, ec) (bd.size * bd.size + 1) (sr, sc) []).1

/-- The double loop of `is_redundant_move` over pairs of adjacent stones. -/
def pairs_connected (bd : Board) (player : ℕ) : List (ℤ × ℤ) → Bool
  | [] => false
  | x :: xs =>
    xs.any (fun y => has_connection bd x.1 x.2 y.1 y.2 player) ||
      pairs_connected bd player xs

/-- Embedding of `is_redundant_move` from `back.py`. -/
def is_redundant_move (bd : Board) (row col : ℤ) (player : ℕ) : Bool :=
  let adjacent_player_cells := DIRECTIONS.filterMap (fun d =>
    let q : ℤ × ℤ := (row + d.1, col + d.2)
    if inB bd.size q ∧ bd.cell q = player then some q else none)
  if adjacent_player_cells.length < 2 then false
  else pairs_connected bd player adjacent_player_cells

/-- Number of stones of value `v` on the board of a state. -/
def count_stones (s : HexState) (v : ℕ) : ℕ :=
  ((List.range s.size).map (fun (r : ℕ) =>
    ((List.range s.size).filter (fun (c : ℕ) => s.board ((r : ℤ), (c : ℤ)) == v)).length)).sum

/-- Embedding of `evaluate_state` from `back.py`: material, path distance,
centre control and the redundant-move penalty, with the source's weights. -/
def evaluate_state (s : HexState) (player : ℕ) : ℤ :=
  let opponent := 3 - player
  let n := s.size
  let score : ℤ := (count_stones s player : ℤ) - (count_stones s opponent : ℤ)
  let player_distance := shortest_path_distance s.toBoard player
  let opponent_distance := shortest_path_distance s.toBoard opponent
  let path_score : ℤ :=
    if player_distance = PyVal.pinf then -50
    else if opponent_distance = PyVal.pinf then 50
    else opponent_distance.toZ - player_distance.toZ
  let center : ℕ := n / 2
  let pcc : ℕ := ((List.range n).map (fun (r : ℕ) =>
    ((List.range n).filter (fun (c : ℕ) => s.board ((r : ℤ), (c : ℤ)) == player &&
      decide (|(r : ℤ) - (center : ℤ)| + |(c : ℤ) - (center : ℤ)| ≤ (center : ℤ)))).length)).sum
  let occ : ℕ := ((List.range n).map (fun (r : ℕ) =>
    ((List.range n).filter (fun (c : ℕ) => s.board ((r : ℤ), (c : ℤ)) == opponent &&
      decide (|(r : ℤ) - (center : ℤ)| + |(c : ℤ) - (center : ℤ)| ≤ (center : ℤ)))).length)).sum
  let center_score : ℤ := ((pcc : ℤ) - (occ : ℤ)) * 2
  let redundant_moves_penalty : ℤ := (-5) * (((List.range n).map (fun (r : ℕ) =>
    ((List.range n).filter (fun (c : ℕ) => s.board ((r : ℤ), (c : ℤ)) == 0 &&
      is_redundant_move s.toBoard (r : ℤ) (c : ℤ) player)).length)).sum : ℤ)
  score * 10 + path_score * 30 + center_score * 20 + redundant_moves_penalty

/-- The maximizing loop of `alpha_beta_search` from `back.py`. Each iteration
clones the parent state (reading the absent `player_turn` attribute), places
the stone, recurses through `rec`, and updates best score, best move and
alpha, cutting off when `beta <= alpha`. -/
def ab_max (s : HexState) (player : ℕ)
    (rec : HexState → PyVal → PyVal → Except String (PyVal × Option (ℕ × ℕ))) :
    List (ℕ × ℕ) → PyVal → Option (ℕ × ℕ) → PyVal → PyVal →
      Except String (PyVal × Option (ℕ × ℕ))
  | [], best, bestMove, _, _ => .ok (best, bestMove)
  | (row, col) :: rest, best, bestMove, alpha, beta =>
    match clone_state s with
    | .error e => .error e
    | .ok ns0 =>
      match s.player_turn with
      | none => .error "AttributeError"
      | some pt =>
        let ns : HexState :=
          ⟨ns0.size,
            fun p => if p = ((row : ℤ), (col : ℤ)) then player else ns0.board p,
            ns0.is_black_turn, some (!pt)⟩
        match rec ns alpha beta with
        | .error e => .error e
        | .ok (score, _) =>
          let best2 := if PyVal.lt best score then score else best
          let bestMove2 := if PyVal.lt best score then some (row, col) else bestMove
          let alpha2 := PyVal.pymax alpha best2
          if PyVal.le beta alpha2 then .ok (best2, bestMove2)
          else ab_max s player rec rest best2 bestMove2 alpha2 beta

/-- The minimizing loop of `alpha_beta_search` from `back.py`. -/
def ab_min (s : HexState) (player : ℕ)
    (rec : HexState → PyVal → PyVal → Except String (PyVal × Option (ℕ × ℕ))) :
    List (ℕ × ℕ) → PyVal → Option (ℕ × ℕ) → PyVal → PyVal →
      Except String (PyVal × Option (ℕ × ℕ))
  | [], best, bestMove, _, _ => .ok (best, bestMove)
  | (row, col) :: rest, best, bestMove, alpha, beta =>
    match clone_state s with
    | .error e => .error e
    | .ok ns0 =>
      match s.player_turn with
      | none => .error "AttributeError"
      | some pt =>
        let ns : HexState :=
          ⟨ns0.size,
            fun p => if p = ((row : ℤ), (col : ℤ)) then player else ns0.board p,
            ns0.is_black_turn, some (!pt)⟩
        match rec ns alpha beta with
        | .error e => .error e
        | .ok (score, _) =>
          let best2 := if PyVal.lt score best then score else best
          let bestMove2 := if PyVal.lt score best then some (row, col) else bestMove
          let beta2 := PyVal.pymin beta best2
          if PyVal.le beta2 alpha then .ok (best2, bestMove2)
          else ab_min s player rec rest best2 bestMove2 alpha beta2

/-- Embedding of `alpha_beta_search` from `back.py`. The `if depth == 0`
test of the source becomes the two fuel equations; `random.shuffle` of the
move list becomes the permutation parameter `sh`. -/
def alpha_beta_search (sh : List (ℕ × ℕ) → List (ℕ × ℕ)) :
    ℕ → HexState → PyVal → PyVal → Bool → Except String (PyVal × Option (ℕ × ℕ))
  | 0, s, _, _, maximizing =>
    let player : ℕ := if maximizing then 1 else 2
    let opponent : ℕ := if maximizing then 2 else 1
    if check_win s.toBoard player then .ok (.num 1000, none)
    else if check_win s.toBoard opponent then .ok (.num (-1000), none)
    else .ok (.num (evaluate_state s player), none)
  | depth + 1, s, alpha, beta, maximizing =>
    let player : ℕ := if maximizing then 1 else 2
    let opponent : ℕ := if maximizing then 2 else 1
    if check_win s.toBoard player then .ok (.num 1000, none)
    else if check_win s.toBoard opponent then .ok (.num (-1000), none)
    else
      let valid_moves := get_valid_moves s
      if valid_moves.isEmpty then .ok (.num 0, none)
      else
        let moves := sh valid_moves
        if maximizing then
          ab_max s player (fun ns a b2 => alpha_beta_search sh depth ns a b2 false)
            moves PyVal.ninf none alpha beta
        else
          ab_min s player (fun ns a b2 => alpha_beta_search sh depth ns a b2 true)
            moves PyVal.pinf none alpha beta

/-- Row-major enumeration of the cells, as the double loop of the swap-rule
check of `find_best_move` scans them. -/
def row_major (n : ℕ) : List (ℕ × ℕ) :=
  (List.range n).flatMap (fun (r : ℕ) => (List.range n).map (fun (c : ℕ) => (r, c)))

/-- The swap-rule scan of `find_best_move` from `back.py`: the first cell
holding a player-1 stone within Chebyshev distance 1 of `(size//2, size//2)`
yields the transposed pair `(c, r)`. -/
def swap_scan (s : HexState) : Option (ℤ × ℤ) :=
  (row_major s.size).findSome? (fun (rc : ℕ × ℕ) =>
    if s.board ((rc.1 : ℤ), (rc.2 : ℤ)) = 1 ∧
        |(rc.1 : ℤ) - ((s.size / 2 : ℕ) : ℤ)| ≤ 1 ∧
        |(rc.2 : ℤ) - ((s.size / 2 : ℕ) : ℤ)| ≤ 1
    then some ((rc.2 : ℤ), (rc.1 : ℤ)) else none)

/-- The final branch of `find_best_move` from `back.py` (reference
implementation): run the alpha-beta search and return its move, or the
sentinel `(-1, -1)` when no move is attached to the score. -/
def search_move (sh : List (ℕ × ℕ) → List (ℕ × ℕ)) (s : HexState) (depth : ℕ) :
    Except String (ℤ × ℤ) :=
  match alpha_beta_search sh depth s PyVal.ninf PyVal.pinf s.is_black_turn with
  | .error e => .error e
  | .ok (_, some (r, c)) => .ok ((r : ℤ), (c : ℤ))
  | .ok (_, none) => .ok (-1, -1)

/-- Embedding of `find_best_move` from `back.py`: the empty-board opening
(centre plus `random.choice([-1,0,1])`, the parameter `off`), the swap-rule
branch, then the alpha-beta search. -/
def find_best_move (sh : List (ℕ × ℕ) → List (ℕ × ℕ)) (off : ℤ)
    (s : HexState) (depth : ℕ) : Except String (ℤ × ℤ) :=
  let player : ℕ := if s.is_black_turn then 1 else 2
  let n := s.size
  let ec := empty_count s
  if ec = n * n then
    .ok (((n / 2 : ℕ) : ℤ) + off, ((n / 2 : ℕ) : ℤ))
  else if ec = n * n - 1 ∧ player = 2 then
    match swap_scan s with
    | some mv => .ok mv
    | none => search_move sh s depth
  else search_move sh s depth

lemma alpha_beta_root_win (sh : List (ℕ × ℕ) → List (ℕ × ℕ)) (depth : ℕ)
    (s : HexState) (alpha beta : PyVal) (maximizing : Bool)
    (hwin : check_win s.toBoard 1 = true ∨ check_win s.toBoard 2 = true) :
    ∃ v, alpha_beta_search sh depth s alpha beta maximizing = .ok (v, none) := by
  cases depth with
  | zero =>
    cases maximizing <;>
      (simp only [alpha_beta_search]; split_ifs <;> exact ⟨_, rfl⟩)
  | succ d =>
    cases maximizing with
    | false =>
      rcases h2 : check_win s.toBoard 2 with _ | _
      · rcases h1 : check_win s.toBoard 1 with _ | _
        · exfalso
          rcases hwin with hw | hw
          · rw [h1] at hw; cases hw
          · rw [h2] at hw; cases hw
        · exact ⟨.num (-1000), by simp [alpha_beta_search, h1, h2]⟩
      · exact ⟨.num 1000, by simp [alpha_beta_search, h2]⟩
    | true =>
      rcases h1 : check_win s.toBoard 1 with _ | _
      · rcases h2 : check_win s.toBoard 2 with _ | _
        · exfalso
          rcases hwin with hw | hw
          · rw [h1] at hw; cases hw
          · rw [h2] at hw; cases hw
        · exact ⟨.num (-1000), by simp [alpha_beta_search, h1, h2]⟩
      · exact ⟨.num 1000, by simp [alpha_beta_search, h1]⟩

lemma alpha_beta_no_moves (sh : List (ℕ × ℕ) → List (ℕ × ℕ)) (depth : ℕ)
    (s : HexState) (alpha beta : PyVal) (maximizing : Bool)
    (hvm : get_valid_moves s = []) :
    ∃ v, alpha_beta_search sh depth s alpha beta maximizing = .ok (v, none) := by
  cases depth with
  | zero =>
    cases maximizing <;>
      (simp only [alpha_beta_search]; split_ifs <;> exact ⟨_, rfl⟩)
  | succ d =>
    cases maximizing <;>
      (simp only [alpha_beta_search, hvm, List.isEmpty_nil]; split_ifs <;> exact ⟨_, rfl⟩)

/-- Claim C10: in a position at least two stones into the game where a player
already has a winning connection, `find_best_move` returns the sentinel
`(-1, -1)` even though legal moves remain: the root win check returns a score
with no move attached. -/
theorem C10_decided_position_returns_sentinel
    (sh : List (ℕ × ℕ) → List (ℕ × ℕ)) (off : ℤ) (s : HexState) (depth : ℕ)
    (hstones : empty_count s + 2 ≤ s.size * s.size)
    (hmoves : get_valid_moves s ≠ [])
    (hwin : check_win s.toBoard 1 = true ∨ check_win s.toBoard 2 = true) :
    find_best_move sh off s depth = .ok (-1, -1) := by
  obtain ⟨v, hab⟩ :=
    alpha_beta_root_win sh depth s PyVal.ninf PyVal.pinf s.is_black_turn hwin
  simp only [find_best_move]
  rw [if_neg (by omega : ¬ (empty_count s = s.size * s.size))]
  rw [if_neg (by rintro ⟨ha, -⟩; omega)]
  simp only [search_move, hab]

/-- Witness for C10: a decided 3-by-3 position (player 1 has the left column)
with empty cells remaining gives the sentinel. -/
theorem C10_decided_position_returns_sentinel_witness :
    find_best_move (fun l => l) 0
      ⟨3, fun p => if p = (0, 0) ∨ p = (1, 0) ∨ p = (2, 0) then 1
          else if p = (2, 2) then 2 else 0, false, none⟩ 3 = .ok (-1, -1) :=
  C10_decided_position_returns_sentinel _ _ _ _ (by decide) (by decide)
    (Or.inl (by decide))

/-- The board state of the C1 failing input: stones at `(0, 0)` (player 1)
and `(2, 2)` (player 2) on a 3-by-3 board, player 1 to move. -/
def c1_state : HexState :=
  ⟨3, fun p => if p = (0, 0) then 1 else if p = (2, 2) then 2 else 0, true, none⟩

/-- Claim C1 (failing input): on a position with two stones and seven empty
cells, `find_best_move` does not return a coordinate pair at all — the first
loop iteration of `alpha_beta_search` calls `clone_state`, which reads the
attribute `player_turn` that `HexState` never defines, so an
`AttributeError` unwinds out of the search. -/
theorem C1_search_raises_attribute_error :
    empty_count c1_state = 7 ∧
    find_best_move (fun l => l) 0 c1_state 1 = .error "AttributeError" := by
  decide

/-- The board state of the C3 failing input: player 1 has `(0, 1)` and
`(1, 1)` and wins at once by playing `(2, 1)`; player 2 holds `(0, 2)` and
`(2, 2)`. Four plies into the game, player 1 to move. -/
def c3_state : HexState :=
  ⟨3, fun p => if p = (0, 1) ∨ p = (1, 1) then 1
      else if p = (0, 2) ∨ p = (2, 2) then 2 else 0, true, none⟩

/-- Claim C3 (failing input): the mover has an immediate winning move
(placing at `(2, 1)` completes the top-bottom connection) and the position is
not yet decided, yet `find_best_move` raises `AttributeError` inside
`clone_state` instead of returning the winning move. -/
theorem C3_winning_move_unreachable :
    check_win ⟨3, fun p => if p = (2, 1) then 1 else c3_state.board p⟩ 1 = true ∧
    check_win c3_state.toBoard 1 = false ∧
    check_win c3_state.toBoard 2 = false ∧
    find_best_move (fun l => l) 0 c3_state 1 = .error "AttributeError" := by
  decide

/-- The 1-by-1 full board refuting C9: a single player-1 stone, second
player to move. -/
def c9_state : HexState := ⟨1, fun p => if p = (0, 0) then 1 else 0, false, none⟩

/-- Counterexample to C9 as stated: on the completely filled 1-by-1 board
holding the first player's stone, with the second player to move and depth 1,
`find_best_move` enters the swap branch (`empty_count = size*size - 1` holds
vacuously) and returns `(0, 0)`, not the sentinel `(-1, -1)`. -/
theorem C9_one_by_one_counterexample :
    empty_count c9_state = 0 ∧
    find_best_move (fun l => l) 0 c9_state 1 = .ok (0, 0) ∧
    ((0 : ℤ), (0 : ℤ)) ≠ ((-1 : ℤ), (-1 : ℤ)) := by
  decide

/-- Claim C9 as amended: for every completely filled board of size at least
2 and every depth, `find_best_move` returns the sentinel `(-1, -1)` and does
not raise. -/
theorem C9_full_board_returns_sentinel
    (sh : List (ℕ × ℕ) → List (ℕ × ℕ)) (off : ℤ) (s : HexState) (depth : ℕ)
    (h2 : 2 ≤ s.size)
    (hfull : ∀ r c : ℕ, r < s.size → c < s.size → s.board ((r : ℤ), (c : ℤ)) ≠ 0) :
    find_best_move sh off s depth = .ok (-1, -1) := by
  have hvm : get_valid_moves s = [] := by
    rw [List.eq_nil_iff_forall_not_mem]
    intro x hx
    obtain ⟨row, hrow, hx2⟩ := List.mem_flatMap.mp hx
    obtain ⟨col, hcol, rfl⟩ := List.mem_map.mp hx2
    rw [List.mem_filter] at hcol
    exact hfull row col (List.mem_range.mp hrow) (List.mem_range.mp hcol.1)
      (by simpa using hcol.2)
  have hec : empty_count s = 0 := by
    unfold empty_count
    apply List.sum_eq_zero
    intro x hx
    obtain ⟨row, hrow, rfl⟩ := List.mem_map.mp hx
    rw [List.length_eq_zero, List.filter_eq_nil_iff]
    intro c hc
    simp only [beq_iff_eq, decide_eq_true_eq]
    exact hfull row c (List.mem_range.mp hrow) (List.mem_range.mp hc)
  have hmul : 4 ≤ s.size * s.size := by
    have := Nat.mul_le_mul h2 h2
    simpa using this
  obtain ⟨v, hab⟩ :=
    alpha_beta_no_moves sh depth s PyVal.ninf PyVal.pinf s.is_black_turn hvm
  simp only [find_best_move]
  rw [if_neg (by omega : ¬ (empty_count s = s.size * s.size))]
  rw [if_neg (by rintro ⟨ha, -⟩; omega)]
  simp only [search_move, hab]

/-- Witness for the amended C9: the full 2-by-2 board of player-1 stones. -/
theorem C9_full_board_returns_sentinel_witness :
    find_best_move (fun l => l) 0 ⟨2, fun _ => 1, false, none⟩ 4 = .ok (-1, -1) :=
  C9_full_board_returns_sentinel _ _ _ _ (by decide) (fun r c _ _ => one_ne_zero)

/-- The one-stone board of the C5 counterexample: a single player-1 stone at
`(0, 1)`, within Chebyshev distance 1 of the centre `(1, 1)`, second player
to move. -/
def c5_state : HexState := ⟨3, fun p => if p = (0, 1) then 1 else 0, false, none⟩

/-- Counterexample to C5 as stated: the swap branch fires (the stone is
within Chebyshev distance 1 of the centre) but `find_best_move` returns the
transposed coordinate `(1, 0)`, not the stone's own cell `(0, 1)` — the
returned pair directs a placement at the mirrored cell rather than a
same-cell takeover. -/
theorem C5_swap_returns_transposed_cell :
    c5_state.board (0, 1) = 1 ∧
    empty_count c5_state = 8 ∧
    find_best_move (fun l => l) 0 c5_state 3 = .ok (1, 0) ∧
    ((1 : ℤ), (0 : ℤ)) ≠ ((0 : ℤ), (1 : ℤ)) := by
  decide

/-- Membership in `get_valid_moves`: exactly the in-bounds empty cells. -/
lemma mem_get_valid_moves {s : HexState} {a b2 : ℕ} :
    (a, b2) ∈ get_valid_moves s ↔
      a < s.size ∧ b2 < s.size ∧ s.board ((a : ℤ), (b2 : ℤ)) = 0 := by
  unfold get_valid_moves
  constructor
  · intro h
    obtain ⟨row, hrow, h2⟩ := List.mem_flatMap.mp h
    obtain ⟨col, hcol, heq⟩ := List.mem_map.mp h2
    injection heq with hra hcb
    subst hra
    subst hcb
    rw [List.mem_filter] at hcol
    exact ⟨List.mem_range.mp hrow, List.mem_range.mp hcol.1, by simpa using hcol.2⟩
  · rintro ⟨ha, hb2, hcell⟩
    exact List.mem_flatMap.mpr ⟨a, List.mem_range.mpr ha,
      List.mem_map.mpr ⟨b2, List.mem_filter.mpr
        ⟨List.mem_range.mpr hb2, by simpa using hcell⟩, rfl⟩⟩

/-- Manhattan distance of a candidate move to the board centre
`(N/2, N/2)`. -/
def manhattan_to_center (n : ℕ) (rc : ℕ × ℕ) : ℤ :=
  |(rc.1 : ℤ) - ((n / 2 : ℕ) : ℤ)| + |(rc.2 : ℤ) - ((n / 2 : ℕ) : ℤ)|

/-- The empty 3-by-3 board used to refute the move-ordering claim. -/
def c6_state : HexState := ⟨3, fun _ => 0, true, none⟩

/-- Counterexample to C6 as stated: with the identity permutation (a possible
outcome of `random.shuffle`), the candidate list examined by the search is
the row-major `get_valid_moves` order, which is not sorted by ascending
Manhattan distance to the centre — the first candidate `(0, 0)` is farther
from the centre than the later candidate `(0, 1)`. -/
theorem C6_not_manhattan_sorted :
    ¬ List.Sorted (fun a b2 => manhattan_to_center 3 a ≤ manhattan_to_center 3 b2)
      ((fun l => l) (get_valid_moves c6_state)) := by
  decide

/-- Claim C6 as amended: at every node the candidate moves are exactly the
EMPTY cells of the board; they are examined in the randomly shuffled order of
the row-major candidate list, with no Manhattan-distance sorting applied. -/
theorem C6_candidates_are_empty_cells (sh : List (ℕ × ℕ) → List (ℕ × ℕ))
    (hsh : ∀ l, (sh l).Perm l) (s : HexState) (a b2 : ℕ) :
    (a, b2) ∈ sh (get_valid_moves s) ↔
      a < s.size ∧ b2 < s.size ∧ s.board ((a : ℤ), (b2 : ℤ)) = 0 := by
  rw [(hsh _).mem_iff]
  exact mem_get_valid_moves

/-- Witness for the amended C6: the centre cell is a candidate move of the
empty 3-by-3 board under the identity shuffle. -/
theorem C6_candidates_are_empty_cells_witness :
    (1, 1) ∈ (fun l => l) (get_valid_moves c6_state) :=
  (C6_candidates_are_empty_cells _ (fun l => List.Perm.refl l) c6_state 1 1).mpr
    (by decide)

lemma mem_row_major {n : ℕ} {a b2 : ℕ} :
    (a, b2) ∈ row_major n ↔ a < n ∧ b2 < n := by
  unfold row_major
  constructor
  · intro h
    obtain ⟨r, hr, h2⟩ := List.mem_flatMap.mp h
    obtain ⟨c, hc, heq⟩ := List.mem_map.mp h2
    injection heq with h3 h4
    subst h3
    subst h4
    exact ⟨List.mem_range.mp hr, List.mem_range.mp hc⟩
  · rintro ⟨ha, hb2⟩
    exact List.mem_flatMap.mpr ⟨a, List.mem_range.mpr ha,
      List.mem_map.mpr ⟨b2, List.mem_range.mpr hb2, rfl⟩⟩

lemma findSome?_single {α β : Type} [DecidableEq α]
    (f : α → Option β) (x0 : α) :
    ∀ l : List α, (∀ x ∈ l, x ≠ x0 → f x = none) →
      l.findSome? f = if x0 ∈ l then f x0 else none := by
  intro l
  induction l with
  | nil => intro _; simp
  | cons a l ih =>
    intro hother
    rw [List.findSome?_cons]
    by_cases hax : a = x0
    · subst hax
      rcases hfa : f a with _ | v
      · rw [ih (fun x hx hne => hother x (List.mem_cons_of_mem a hx) hne)]
        simp [hfa]
      · simp
    · have hfa : f a = none := hother a (List.mem_cons_self a l) hax
      rw [hfa, ih (fun x hx hne => hother x (List.mem_cons_of_mem a hx) hne)]
      have hax2 : ¬ (x0 = a) := fun h => hax h.symm
      simp [List.mem_cons, hax2]

lemma swap_scan_single {s : HexState} {r c : ℕ}
    (hr : r < s.size) (hc : c < s.size)
    (h1 : s.board ((r : ℤ), (c : ℤ)) = 1)
    (honly : ∀ a b2 : ℕ, a < s.size → b2 < s.size → (a, b2) ≠ (r, c) →
      s.board ((a : ℤ), (b2 : ℤ)) = 0) :
    swap_scan s =
      if |(r : ℤ) - ((s.size / 2 : ℕ) : ℤ)| ≤ 1 ∧ |(c : ℤ) - ((s.size / 2 : ℕ) : ℤ)| ≤ 1
      then some ((c : ℤ), (r : ℤ)) else none := by
  unfold swap_scan
  rw [findSome?_single _ (r, c) _ ?hother]
  case hother =>
    rintro ⟨a, b2⟩ hx hne
    have hb := mem_row_major.mp hx
    rw [if_neg]
    rintro ⟨hcell, -⟩
    rw [honly a b2 hb.1 hb.2 hne] at hcell
    cases hcell
  rw [if_pos (mem_row_major.mpr ⟨hr, hc⟩)]
  simp only [h1, true_and]

lemma empty_count_single_stone {s : HexState} {r c : ℕ}
    (hr : r < s.size) (hc : c < s.size)
    (h1 : s.board ((r : ℤ), (c : ℤ)) ≠ 0)
    (honly : ∀ a b2 : ℕ, a < s.size → b2 < s.size → (a, b2) ≠ (r, c) →
      s.board ((a : ℤ), (b2 : ℤ)) = 0) :
    empty_count s = s.size * s.size - 1 := by
  have hrow : ∀ row : ℕ, row < s.size →
      ((List.range s.size).filter
        (fun (col : ℕ) => s.board ((row : ℤ), (col : ℤ)) == 0)).length =
      if row = r then s.size - 1 else s.size := by
    intro row hrowlt
    by_cases hre : row = r
    · subst hre
      rw [if_pos rfl]
      rw [← List.countP_eq_length_filter]
      have hsplit := List.length_eq_countP_add_countP
        (fun (col : ℕ) => s.board ((row : ℤ), (col : ℤ)) == 0) (List.range s.size)
      have hnot : (List.range s.size).countP
          (fun (col : ℕ) => decide (¬ ((s.board ((row : ℤ), (col : ℤ)) == 0) = true))) = 1 := by
        have hcongr : (List.range s.size).countP
            (fun (col : ℕ) => decide (¬ ((s.board ((row : ℤ), (col : ℤ)) == 0) = true))) =
            (List.range s.size).countP (fun (col : ℕ) => col == c) := by
          apply List.countP_congr
          intro col hcol
          have hcoltlt := List.mem_range.mp hcol
          by_cases hcc : col = c
          · subst hcc
            simp [h1]
          · have := honly row col hrowlt hcoltlt
              (by intro hp; injection hp with hp1 hp2; exact hcc hp2)
            simp [this, hcc]
        rw [hcongr]
        have hcnt : (List.range s.size).countP (fun (col : ℕ) => col == c) =
            (List.range s.size).count c := by rw [List.count]
        rw [hcnt]
        exact List.count_eq_one_of_mem (List.nodup_range s.size)
          (List.mem_range.mpr hc)
      rw [List.length_range] at hsplit
      omega
    · rw [if_neg hre]
      have : (List.range s.size).filter
          (fun (col : ℕ) => s.board ((row : ℤ), (col : ℤ)) == 0) =
          List.range s.size := by
        rw [List.filter_eq_self]
        intro col hcol
        have := honly row col hrowlt (List.mem_range.mp hcol)
          (by intro hp; injection hp with hp1 hp2; exact hre hp1)
        simp [this]
      rw [this, List.length_range]
  unfold empty_count
  have hmap : (List.range s.size).map (fun (row : ℕ) =>
      ((List.range s.size).filter
        (fun (col : ℕ) => s.board ((row : ℤ), (col : ℤ)) == 0)).length) =
      (List.range s.size).map (fun row => if row = r then s.size - 1 else s.size) := by
    apply List.map_congr_left
    intro row hrowm
    exact hrow row (List.mem_range.mp hrowm)
  rw [hmap]
  have hsum : ((List.range s.size).map
      (fun row => if row = r then s.size - 1 else s.size)).sum =
      ∑ row ∈ Finset.range s.size, (if row = r then s.size - 1 else s.size) := rfl
  rw [hsum]
  rw [Finset.sum_eq_sum_diff_singleton_add (Finset.mem_range.mpr hr)]
  have hconst : ∑ row ∈ Finset.range s.size \ {r},
      (if row = r then s.size - 1 else s.size) =
      ∑ _row ∈ Finset.range s.size \ {r}, s.size := by
    apply Finset.sum_congr rfl
    intro x hx
    rw [Finset.mem_sdiff, Finset.mem_singleton] at hx
    rw [if_neg hx.2]
  rw [hconst, Finset.sum_const, Finset.card_sdiff
    (by simpa using Finset.mem_range.mpr hr), Finset.card_singleton,
    Finset.card_range, if_pos rfl, smul_eq_mul]
  have harith : ∀ k : ℕ, 1 ≤ k → (k - 1) * k + (k - 1) = k * k - 1 := by
    intro k hk
    obtain ⟨m, rfl⟩ : ∃ m, k = m + 1 := ⟨k - 1, by omega⟩
    simp only [Nat.add_sub_cancel]
    have e1 : (m + 1) * (m + 1) = m * m + 2 * m + 1 := by ring
    have e2 : m * (m + 1) = m * m + m := by ring
    omega
  exact harith s.size (by omega)

/-- Claim C5 as amended: with exactly one stone on the board — player 1's at
`(r, c)` — and the second player to move, `find_best_move` enters the swap
branch if and only if `(r, c)` is within Chebyshev distance 1 of the centre
`(N//2, N//2)`; when it does, it returns the transposed coordinate `(c, r)`
(a placement directive at the mirrored cell, not a takeover of `(r, c)`;
`HexGame.swap_move` of the frontend implements the same-cell takeover
separately), and otherwise it falls through to the alpha-beta search. -/
theorem C5_swap_rule (sh : List (ℕ × ℕ) → List (ℕ × ℕ)) (off : ℤ) (depth : ℕ)
    (s : HexState) (r c : ℕ)
    (hr : r < s.size) (hc : c < s.size)
    (h1 : s.board ((r : ℤ), (c : ℤ)) = 1)
    (honly : ∀ a b2 : ℕ, a < s.size → b2 < s.size → (a, b2) ≠ (r, c) →
      s.board ((a : ℤ), (b2 : ℤ)) = 0)
    (ht : s.is_black_turn = false) :
    find_best_move sh off s depth =
      if |(r : ℤ) - ((s.size / 2 : ℕ) : ℤ)| ≤ 1 ∧ |(c : ℤ) - ((s.size / 2 : ℕ) : ℤ)| ≤ 1
      then .ok ((c : ℤ), (r : ℤ)) else search_move sh s depth := by
  have hec := empty_count_single_stone hr hc (by rw [h1]; exact one_ne_zero) honly
  have hn1 : 1 ≤ s.size := by omega
  have hnn : 1 ≤ s.size * s.size := by
    have := Nat.mul_le_mul hn1 hn1
    simpa using this
  simp only [find_best_move, ht]
  rw [if_neg (by omega : ¬ (empty_count s = s.size * s.size))]
  rw [if_pos ⟨hec, rfl⟩]
  rw [swap_scan_single hr hc h1 honly]
  split_ifs with hcheb
  · rfl
  · rfl

/-- Witness for the amended C5: the one-stone board with the stone at
`(0, 1)` is within Chebyshev distance 1 of the centre, so the swap branch
returns the transposed pair `(1, 0)`. -/
theorem C5_swap_rule_witness :
    find_best_move (fun l => l) 0 c5_state 3 = .ok ((1 : ℤ), (0 : ℤ)) := by
  have h := C5_swap_rule (fun l => l) 0 3 c5_state 0 1 (by decide) (by decide)
    (by decide)
    (fun a b2 _ _ hne => by
      show (if ((a : ℤ), (b2 : ℤ)) = ((0 : ℤ), (1 : ℤ)) then 1 else 0) = 0
      rw [if_neg]
      intro he
      injection he with he1 he2
      apply hne
      have ha : a = 0 := by exact_mod_cast he1
      have hb : b2 = 1 := by exact_mod_cast he2
      rw [ha, hb])
    rfl
  rw [h, if_pos (by decide)]
  rfl

/-- The number of in-bounds neighbours of a cell under the six offsets used
by every traversal of `back.py`. -/
def in_bounds_neighbors (n : ℕ) (p : ℤ × ℤ) : ℕ :=
  (DIRECTIONS.filter (fun d => decide (inB n (p.1 + d.1, p.2 + d.2)))).length

lemma ibn_eval (n : ℕ) (p : ℤ × ℤ) (b1 b2 b3 b4 b5 b6 : Bool)
    (h1 : decide (inB n (p.1 + -1, p.2 + 0)) = b1)
    (h2 : decide (inB n (p.1 + -1, p.2 + 1)) = b2)
    (h3 : decide (inB n (p.1 + 0, p.2 + -1)) = b3)
    (h4 : decide (inB n (p.1 + 0, p.2 + 1)) = b4)
    (h5 : decide (inB n (p.1 + 1, p.2 + -1)) = b5)
    (h6 : decide (inB n (p.1 + 1, p.2 + 0)) = b6) :
    in_bounds_neighbors n p =
      (cond b1 1 0) + (cond b2 1 0) + (cond b3 1 0) +
      (cond b4 1 0) + (cond b5 1 0) + (cond b6 1 0) := by
  unfold in_bounds_neighbors DIRECTIONS
  simp only [List.filter_cons, List.filter_nil, h1, h2, h3, h4, h5, h6]
  cases b1 <;> cases b2 <;> cases b3 <;> cases b4 <;> cases b5 <;> cases b6 <;> rfl

/-- Counterexample to C7 as stated: on a 3-by-3 board the obtuse corners
`(0, 2)` and `(2, 0)` have exactly 3 in-bounds neighbours, not 2. -/
theorem C7_obtuse_corner_counterexample :
    in_bounds_neighbors 3 (0, 2) = 3 ∧ in_bounds_neighbors 3 (0, 2) ≠ 2 ∧
    in_bounds_neighbors 3 (2, 0) = 3 := by
  decide

/-- Claim C7 as amended: for every board with `N >= 3`, under the six-offset
adjacency every interior cell has exactly 6 in-bounds neighbours; the acute
corners `(0, 0)` and `(N-1, N-1)` have exactly 2; the obtuse corners
`(0, N-1)` and `(N-1, 0)` have exactly 3; and every non-corner boundary cell
has 3 or 4 (in fact 4). -/
theorem C7_neighbor_counts (n : ℕ) (hn : 3 ≤ n) :
    (∀ p : ℤ × ℤ, 1 ≤ p.1 → p.1 ≤ (n : ℤ) - 2 → 1 ≤ p.2 → p.2 ≤ (n : ℤ) - 2 →
      in_bounds_neighbors n p = 6) ∧
    in_bounds_neighbors n (0, 0) = 2 ∧
    in_bounds_neighbors n ((n : ℤ) - 1, (n : ℤ) - 1) = 2 ∧
    in_bounds_neighbors n (0, (n : ℤ) - 1) = 3 ∧
    in_bounds_neighbors n ((n : ℤ) - 1, 0) = 3 ∧
    (∀ p : ℤ × ℤ, inB n p →
      (p.1 = 0 ∨ p.1 = (n : ℤ) - 1 ∨ p.2 = 0 ∨ p.2 = (n : ℤ) - 1) →
      p ≠ (0, 0) → p ≠ (0, (n : ℤ) - 1) → p ≠ ((n : ℤ) - 1, 0) →
      p ≠ ((n : ℤ) - 1, (n : ℤ) - 1) →
      (in_bounds_neighbors n p = 3 ∨ in_bounds_neighbors n p = 4)) := by
  refine ⟨?_, ?_, ?_, ?_, ?_, ?_⟩
  · intro p ha hb hc hd
    rw [ibn_eval n p true true true true true true] <;>
      first
        | rfl
        | (rw [decide_eq_true_eq]; unfold inB; dsimp only; omega)
  · rw [ibn_eval n (0, 0) false false false true false true] <;>
      first
        | rfl
        | (rw [decide_eq_true_eq]; unfold inB; dsimp only; omega)
        | (rw [decide_eq_false_iff_not]; unfold inB; dsimp only; omega)
  · rw [ibn_eval n ((n : ℤ) - 1, (n : ℤ) - 1) true false true false false false] <;>
      first
        | rfl
        | (rw [decide_eq_true_eq]; unfold inB; dsimp only; omega)
        | (rw [decide_eq_false_iff_not]; unfold inB; dsimp only; omega)
  · rw [ibn_eval n (0, (n : ℤ) - 1) false false true false true true] <;>
      first
        | rfl
        | (rw [decide_eq_true_eq]; unfold inB; dsimp only; omega)
        | (rw [decide_eq_false_iff_not]; unfold inB; dsimp only; omega)
  · rw [ibn_eval n ((n : ℤ) - 1, 0) true true false true false false] <;>
      first
        | rfl
        | (rw [decide_eq_true_eq]; unfold inB; dsimp only; omega)
        | (rw [decide_eq_false_iff_not]; unfold inB; dsimp only; omega)
  · rintro ⟨pr, pc⟩ hin hedge hc1 hc2 hc3 hc4
    obtain ⟨hb1, hb2, hb3, hb4⟩ := hin
    dsimp only at hb1 hb2 hb3 hb4 hedge ⊢
    have hne1 : ¬ (pr = 0 ∧ pc = 0) := by
      rintro ⟨e1, e2⟩; exact hc1 (by rw [e1, e2])
    have hne2 : ¬ (pr = 0 ∧ pc = (n : ℤ) - 1) := by
      rintro ⟨e1, e2⟩; exact hc2 (by rw [e1, e2])
    have hne3 : ¬ (pr = (n : ℤ) - 1 ∧ pc = 0) := by
      rintro ⟨e1, e2⟩; exact hc3 (by rw [e1, e2])
    have hne4 : ¬ (pr = (n : ℤ) - 1 ∧ pc = (n : ℤ) - 1) := by
      rintro ⟨e1, e2⟩; exact hc4 (by rw [e1, e2])
    refine Or.inr ?_
    rcases hedge with he | he | he | he
    · rw [ibn_eval n (pr, pc) false false true true true true] <;>
        first
          | rfl
          | (rw [decide_eq_true_eq]; unfold inB; dsimp only; omega)
          | (rw [decide_eq_false_iff_not]; unfold inB; dsimp only; omega)
    · rw [ibn_eval n (pr, pc) true true true true false false] <;>
        first
          | rfl
          | (rw [decide_eq_true_eq]; unfold inB; dsimp only; omega)
          | (rw [decide_eq_false_iff_not]; unfold inB; dsimp only; omega)
    · rw [ibn_eval n (pr, pc) true true false true false true] <;>
        first
          | rfl
          | (rw [decide_eq_true_eq]; unfold inB; dsimp only; omega)
          | (rw [decide_eq_false_iff_not]; unfold inB; dsimp only; omega)
    · rw [ibn_eval n (pr, pc) true false true false true true] <;>
        first
          | rfl
          | (rw [decide_eq_true_eq]; unfold inB; dsimp only; omega)
          | (rw [decide_eq_false_iff_not]; unfold inB; dsimp only; omega)

/-- Witness for the amended C7 at `N = 3`: an interior cell with 6
neighbours, an acute corner with 2, an obtuse corner with 3, and a boundary
cell with 3 or 4. -/
theorem C7_neighbor_counts_witness :
    in_bounds_neighbors 3 (1, 1) = 6 ∧
    in_bounds_neighbors 3 (0, 0) = 2 ∧
    in_bounds_neighbors 3 (0, ((3 : ℕ) : ℤ) - 1) = 3 ∧
    (in_bounds_neighbors 3 (0, 1) = 3 ∨ in_bounds_neighbors 3 (0, 1) = 4) :=
  ⟨(C7_neighbor_counts 3 (by decide)).1 (1, 1)
      (by decide) (by decide) (by decide) (by decide),
    (C7_neighbor_counts 3 (by decide)).2.1,
    (C7_neighbor_counts 3 (by decide)).2.2.2.1,
    (C7_neighbor_counts 3 (by decide)).2.2.2.2.2 (0, 1) (by decide)
      (Or.inl rfl) (by decide) (by decide) (by decide) (by decide)⟩

/-- Python list indexing: `l[i]` accepts `0 <= i < len` directly and
`-len <= i < 0` wrapped to `len + i`; anything else raises `IndexError`. -/
def pyIdx (len : ℕ) (i : ℤ) : Option ℕ :=
  if 0 ≤ i ∧ i < (len : ℤ) then some i.toNat
  else if -(len : ℤ) ≤ i ∧ i < 0 then some ((len : ℤ) + i).toNat
  else none

/-- `l[i]` with Python semantics. -/
def pyGet {α : Type} (l : List α) (i : ℤ) : Except String α :=
  match pyIdx l.length i with
  | some k =>
    match l[k]? with
    | some a => .ok a
    | none => .error "IndexError"
  | none => .error "IndexError"

/-- `l[i] = a` with Python semantics. -/
def pySet {α : Type} (l : List α) (i : ℤ) (a : α) : Except String (List α) :=
  match pyIdx l.length i with
  | some k => .ok (l.set k a)
  | none => .error "IndexError"

/-- Embedding of the game-logic fields of the `HexGame` class of
`front.py` (presentation-only fields such as the textual move history are
omitted). -/
structure HexGame where
  board : List (List ℕ)
  is_black_turn : Bool
  move_count : ℕ
  first_move : Option (ℤ × ℤ)
  paused : Bool
  game_over : Bool
deriving DecidableEq

/-- Embedding of `HexGame.make_move` from `front.py`: the guard is
`if self.paused or self.game_over or self.board[row][col] != 0: return False`
— the board access carries Python's indexing semantics, so there is no
bounds validation of its own. -/
def make_move (g : HexGame) (row col : ℤ) : Except String (Bool × HexGame) :=
  if g.paused || g.game_over then .ok (false, g)
  else
    match pyGet g.board row with
    | .error e => .error e
    | .ok rowList =>
      match pyGet rowList col with
      | .error e => .error e
      | .ok v =>
        if v ≠ 0 then .ok (false, g)
        else
          match pySet rowList col (if g.is_black_turn then 1 else 2) with
          | .error e => .error e
          | .ok newRow =>
            match pySet g.board row newRow with
            | .error e => .error e
            | .ok newBoard =>
              let mc := g.move_count + 1
              .ok (true,
                ⟨newBoard, !g.is_black_turn, mc,
                  if mc = 1 then some (row, col) else g.first_move,
                  g.paused, g.game_over⟩)

/-- A fresh 3-by-3 game. -/
def c4_game : HexGame :=
  ⟨[[0, 0, 0], [0, 0, 0], [0, 0, 0]], true, 0, none, false, false⟩

/-- Claim C4 (failing input): `make_move` never validates the coordinates.
On a fresh 3-by-3 game, `make_move(-1, 0)` wraps around Python-style,
returns `True` and mutates the cell `(2, 0)`; `make_move(3, 0)` raises
`IndexError`. Both contradict "rejected by returning false, never mutates
the board". -/
theorem C4_make_move_unchecked_bounds :
    make_move c4_game (-1) 0 =
      .ok (true, ⟨[[0, 0, 0], [0, 0, 0], [1, 0, 0]], false, 1,
        some (-1, 0), false, false⟩) ∧
    make_move c4_game 3 0 = .error "IndexError" := by
  decide


